import Mathlib

/-!
Verification of the resume redaction-and-extraction pipeline

A shallow embedding of the core of `main.py` (functions `anonymize_data`,
`extract_info`, `process_resume` from the text stage onward; file decoding and
HTTP transport are external collaborators and out of scope).

Text is modelled as `List Char`.  The Python regular expressions are embedded
as dedicated matchers that reproduce the backtracking behaviour of CPython's
`re` module on the three patterns the source compiles (ASCII fragment):

* email: `\b[A-Za-z0-9._%+-]+@[A-Za-z0-9.-]+\.[A-Z|a-z]{2,}\b`
* phone: `\b(\+?\d{1,3}[-.\s]??)?(\(?\d{3}\)?[-.\s]??\d{3}[-.\s]??\d{4}|\d{10})\b`
* section headers: `KW[:\s]*(.*?)(\n\n|$)` (skills: `Skills?[:\s]*(.*?)(\n|$)`,
  experience: the literal alternation `Experience|Work History[:\s]*(.*?)(\n\n|$)`),
  all with `re.IGNORECASE | re.DOTALL`.

The spaCy entity tagger is an external collaborator; it is modelled as a
function `List Char → Option (List Ent)`, where `none` models a raised
exception (the source has no handler around the `nlp(...)` call, so an
exception propagates out of `anonymize_data`).
-/

set_option autoImplicit false

/-! Section: Character classes (ASCII fragment of Python's `re` classes) -/

/-- Python `\w` (ASCII): letters, digits, underscore. -/
def isWordC (c : Char) : Bool := c.isAlphanum || c == '_'

/-- Python `\s`: space, tab, newline, carriage return, vertical tab, form feed. -/
def isSpaceC (c : Char) : Bool :=
  c == ' ' || c == '\t' || c == '\n' || c == '\r' || c == '\x0b' || c == '\x0c'

/-- Class `[A-Za-z0-9._%+-]` (local part of the email pattern). -/
def isLocalC (c : Char) : Bool :=
  c.isAlphanum || c == '.' || c == '_' || c == '%' || c == '+' || c == '-'

/-- Class `[A-Za-z0-9.-]` (domain part of the email pattern). -/
def isDomC (c : Char) : Bool := c.isAlphanum || c == '.' || c == '-'

/-- Class `[A-Z|a-z]` (top-level-domain part; the `|` is a literal member). -/
def isTldC (c : Char) : Bool := c.isAlpha || c == '|'

/-- Class `[-.\s]` (phone separator). -/
def isSepC (c : Char) : Bool := c == '-' || c == '.' || isSpaceC c

/-- Class `[:\s]` (after a section header keyword). -/
def colonSpace (c : Char) : Bool := c == ':' || isSpaceC c

/-! Section: Positional helpers over `List Char` -/

/-- Whether the character at position `p` is a word character (out of range: no). -/
def isWordAt (s : List Char) (p : Nat) : Bool :=
  match s.get? p with
  | some c => isWordC c
  | none => false

/-- Python `\b` at position `p`: word-ness differs between `p-1` and `p`
(start of string counts as non-word). -/
def wordBoundary (s : List Char) (p : Nat) : Bool :=
  (if p = 0 then false else isWordAt s (p - 1)) != isWordAt s p

/-- End of the maximal run of characters of class `cls` starting at `p`. -/
def runEnd (cls : Char → Bool) (s : List Char) (p : Nat) : Nat :=
  p + ((s.drop p).takeWhile cls).length

/-- Exactly `n` characters of class `\d` are present starting at position `j`. -/
def nDigitsAt (s : List Char) (j n : Nat) : Bool :=
  ((s.drop j).take n).length == n && ((s.drop j).take n).all Char.isDigit

/-- The contiguous region `[a, b)` of `s`. -/
def sliceL (s : List Char) (a b : Nat) : List Char := (s.drop a).take (b - a)

/-- Whether `pat` occurs at the very start of `s`. -/
def startsWithL : List Char → List Char → Bool
  | [], _ => true
  | _ :: _, [] => false
  | a :: ps, b :: ss => a == b && startsWithL ps ss

/-- Whether `pat` occurs contiguously somewhere in `s`. -/
def sublistOfB (pat : List Char) : List Char → Bool
  | [] => startsWithL pat []
  | b :: ss => startsWithL pat (b :: ss) || sublistOfB pat ss

/-! Section: The email matcher

`\b[A-Za-z0-9._%+-]+@[A-Za-z0-9.-]+\.[A-Z|a-z]{2,}\b` at a fixed start
position.  The local part is a maximal class run (no backtracking is possible:
`@` is not in the class).  The `+` on the domain backtracks greedily over the
position of the mandatory dot, and the `{2,}` on the TLD backtracks greedily
over its end, which must be a word boundary. -/

/-- Try `f` at `hi, hi - 1, ...` for `cnt` attempts, first success wins
(the descending exploration order of a greedy quantifier). -/
def descFind {α : Type} (f : Nat → Option α) : Nat → Nat → Option α
  | _, 0 => none
  | hi, cnt + 1 =>
    match f hi with
    | some x => some x
    | none => descFind f (hi - 1) cnt

/-- Email pattern match attempt at position `i`; returns the end position. -/
def emailMatchAt (s : List Char) (i : Nat) : Option Nat :=
  if wordBoundary s i then
    let lEnd := runEnd isLocalC s i
    if i < lEnd ∧ s.get? lEnd == some '@' then
      let dStart := lEnd + 1
      let dEnd := runEnd isDomC s dStart
      descFind (fun m =>
        if s.get? m == some '.' ∧ dStart + 1 ≤ m then
          let tEnd := runEnd isTldC s (m + 1)
          descFind (fun t => if m + 3 ≤ t ∧ wordBoundary s t then some t else none)
            tEnd (tEnd + 1 - (m + 3) + 1)
        else none) (dEnd - 1) (dEnd - 1 - (dStart + 1) + 1)
    else none
  else none

/-! Section: The phone matcher

Continuation-passing encoding of the backtracking of
`\b(\+?\d{1,3}[-.\s]??)?(\(?\d{3}\)?[-.\s]??\d{3}[-.\s]??\d{4}|\d{10})\b`:
greedy `?` tries the present branch first, lazy `??` tries the absent branch
first, alternation is left-biased, `\d{1,3}` tries 3, 2, 1. -/

/-- Greedy `c?`: consume `c` if present, else continue without. -/
def optCharG {α : Type} (s : List Char) (c : Char) (j : Nat) (k : Nat → Option α) : Option α :=
  match (if s.get? j == some c then k (j + 1) else none) with
  | some x => some x
  | none => k j

/-- Lazy `[-.\s]??`: continue without a separator first, then with one. -/
def sepLazy {α : Type} (s : List Char) (j : Nat) (k : Nat → Option α) : Option α :=
  match k j with
  | some x => some x
  | none =>
    match s.get? j with
    | some c => if isSepC c then k (j + 1) else none
    | none => none

/-- Greedy `\d{1,3}` followed by `[-.\s]??`, then the continuation. -/
def phoneD13 {α : Type} (s : List Char) (j : Nat) (k : Nat → Option α) : Option α :=
  match (if nDigitsAt s j 3 then sepLazy s (j + 3) k else none) with
  | some x => some x
  | none =>
    match (if nDigitsAt s j 2 then sepLazy s (j + 2) k else none) with
    | some x => some x
    | none => if nDigitsAt s j 1 then sepLazy s (j + 1) k else none

/-- Group 1 `(\+?\d{1,3}[-.\s]??)?` (greedy optional): present first, absent second. -/
def phoneG1 {α : Type} (s : List Char) (i : Nat) (k : Nat → Option α) : Option α :=
  match optCharG s '+' i (fun j => phoneD13 s j k) with
  | some x => some x
  | none => k i

/-- First alternative of group 2: `\(?\d{3}\)?[-.\s]??\d{3}[-.\s]??\d{4}`. -/
def phoneAlt1 {α : Type} (s : List Char) (j : Nat) (k : Nat → Option α) : Option α :=
  optCharG s '(' j (fun j1 =>
    if nDigitsAt s j1 3 then
      optCharG s ')' (j1 + 3) (fun j2 =>
        sepLazy s j2 (fun j3 =>
          if nDigitsAt s j3 3 then
            sepLazy s (j3 + 3) (fun j4 =>
              if nDigitsAt s j4 4 then k (j4 + 4) else none)
          else none))
    else none)

/-- Group 2 `(alt1|\d{10})` (left-biased alternation). -/
def phoneG2 {α : Type} (s : List Char) (j : Nat) (k : Nat → Option α) : Option α :=
  match phoneAlt1 s j k with
  | some x => some x
  | none => if nDigitsAt s j 10 then k (j + 10) else none

/-- Phone pattern match attempt at position `i`; returns
`(start of group 2, end of match)`.  The final `\b` is checked inside the
continuation so that the engine backtracks through all choice points. -/
def phoneMatchAt (s : List Char) (i : Nat) : Option (Nat × Nat) :=
  if wordBoundary s i then
    phoneG1 s i (fun g2s =>
      phoneG2 s g2s (fun e => if wordBoundary s e then some (g2s, e) else none))
  else none

/-! Section: the findall and sub scanning loops

Leftmost scanning over ascending positions; a match restarts the scan at its
end (matches of these patterns are never empty).  The matcher type returns
`(group start, match end)` for a match beginning at the probed position. -/

/-- All matches `(start, group start, end)` in scan order. -/
def scanFind (f : List Char → Nat → Option (Nat × Nat)) (s : List Char) :
    Nat → Nat → List (Nat × Nat × Nat)
  | 0, _ => []
  | fuel + 1, p =>
    if p < s.length then
      match f s p with
      | some (g, e) => (p, g, e) :: scanFind f s fuel e
      | none => scanFind f s fuel (p + 1)
    else []

/-- The text with every match replaced by `repl` (Python `re.sub`). -/
def scanSub (f : List Char → Nat → Option (Nat × Nat)) (repl : List Char) (s : List Char) :
    Nat → Nat → List Char
  | 0, p => s.drop p
  | fuel + 1, p =>
    if p < s.length then
      match f s p with
      | some (_, e) => repl ++ scanSub f repl s fuel e
      | none => s.getD p ' ' :: scanSub f repl s fuel (p + 1)
    else []

/-- The email matcher in scanner form (the group is the whole match). -/
def emailM (s : List Char) (p : Nat) : Option (Nat × Nat) :=
  (emailMatchAt s p).map (fun e => (p, e))

def emailRepl : List Char := "***@***.com".data
def phoneRepl : List Char := "XXX-XXX-XXXX".data
def nameRepl : List Char := "[CANDIDATE NAME]".data
def addrRepl : List Char := "[ADDRESS]".data

/-- Python `re.findall(email_pattern, text)`: the raw matched strings. -/
def emailFind (s : List Char) : List (List Char) :=
  (scanFind emailM s s.length 0).map (fun x => sliceL s x.1 x.2.2)

/-- Python `re.sub(email_pattern, "***@***.com", text)`. -/
def emailSub (s : List Char) : List Char := scanSub emailM emailRepl s s.length 0

/-- Python `[p[1] for p in re.findall(phone_pattern, text) if p[1]]`: the group-2
substrings of each match (group 2 is mandatory, hence never empty; the filter
is kept for faithfulness). -/
def phoneFind (s : List Char) : List (List Char) :=
  ((scanFind phoneMatchAt s s.length 0).map (fun x => sliceL s x.2.1 x.2.2)).filter
    (fun y => !y.isEmpty)

/-- Python `re.sub(phone_pattern, "XXX-XXX-XXXX", text)`. -/
def phoneSub (s : List Char) : List Char := scanSub phoneMatchAt phoneRepl s s.length 0

/-! Section: Section extraction (`extract_info`)

Each section pattern is a case-insensitive literal keyword, then the greedy
run `[:\s]*`, then the lazy capture `(.*?)` bounded by `(\n\n|$)` (or `(\n|$)`
for skills).  With `re.DOTALL` and no `re.MULTILINE`, `$` matches at the end
of the text or just before a final trailing newline.  The trailing part always
succeeds once the keyword is found, so `re.search` reduces to locating the
first keyword occurrence. -/

/-- Case-insensitive literal occurrence of `kw` (given lowercased) at `p`. -/
def ciAt (s kw : List Char) (p : Nat) : Bool :=
  ((s.drop p).take kw.length).map Char.toLower == kw

/-- First position `p ≥` start where `kw` occurs case-insensitively. -/
def findKwAux (s kw : List Char) : Nat → Nat → Option Nat
  | 0, _ => none
  | fuel + 1, p => if ciAt s kw p then some p else findKwAux s kw fuel (p + 1)

def findKw (s kw : List Char) : Option Nat := findKwAux s kw (s.length + 1) 0

/-- Whether `(\n\n|$)` (`double = true`) or `(\n|$)` (`double = false`) matches at `e`. -/
def stopAt (double : Bool) (s : List Char) (e : Nat) : Bool :=
  if double then s.get? e == some '\n' && s.get? (e + 1) == some '\n'
  else s.get? e == some '\n'

/-- Python `$` (no `re.MULTILINE`): end of text, or just before a final newline. -/
def dollarAt (s : List Char) (e : Nat) : Bool :=
  e == s.length || (e + 1 == s.length && s.get? e == some '\n')

/-- The lazy capture `(.*?)` grown from `e` until the terminator matches. -/
def capAux (double : Bool) (s : List Char) : Nat → Nat → List Char
  | 0, _ => []
  | fuel + 1, e =>
    if stopAt double s e || dollarAt s e then []
    else s.getD e ' ' :: capAux double s fuel (e + 1)

/-- Python `re.search(r"KW[:\s]*(.*?)(\n\n|$)", s, I|S)`: the group-1 capture of the
first match, if the keyword occurs. -/
def sectionCap (kw : List Char) (s : List Char) : Option (List Char) :=
  match findKw s kw with
  | none => none
  | some p => some (capAux true s (s.length + 1) (runEnd colonSpace s (p + kw.length)))

/-- Python `re.search(r"Skills?[:\s]*(.*?)(\n|$)", s, I|S)`: group-1 capture.  The
optional `s?` is greedy and the remainder always succeeds. -/
def skillsCap (s : List Char) : Option (List Char) :=
  match findKw s "skill".data with
  | none => none
  | some p =>
    let j := if ciAt s "s".data (p + 5) then p + 6 else p + 5
    some (capAux false s (s.length + 1) (runEnd colonSpace s j))

/-- Python `re.search(r"Experience|Work History[:\s]*(.*?)(\n\n|$)", s, I|S)`.  The
alternation splits the whole pattern: the first branch is the bare literal
`Experience` (group 1 does not participate, result `some none`); the second is
`Work History` with the capture (result `some (some capture)`).  At equal
start positions the left branch wins. -/
def expSearchAux (s : List Char) : Nat → Nat → Option (Option (List Char))
  | 0, _ => none
  | fuel + 1, p =>
    if ciAt s "experience".data p then some none
    else if ciAt s "work history".data p then
      some (some (capAux true s (s.length + 1) (runEnd colonSpace s (p + 12))))
    else expSearchAux s fuel (p + 1)

def expSearch (s : List Char) : Option (Option (List Char)) :=
  expSearchAux s (s.length + 1) 0

/-- Python `str.strip()`: drop leading and trailing whitespace. -/
def stripV (l : List Char) : List Char :=
  (((l.dropWhile isSpaceC).reverse.dropWhile isSpaceC)).reverse

/-- Python `str.split(sep)` for a one-character separator. -/
def splitChar (sep : Char) : List Char → List (List Char)
  | [] => [[]]
  | c :: t =>
    if c == sep then [] :: splitChar sep t
    else
      match splitChar sep t with
      | [] => [[c]]
      | h :: r => (c :: h) :: r

/-- Python `[i.strip() for i in cap.strip().split(sep) if i.strip()]`. -/
def pyItems (sep : Char) (cap : List Char) : List (List Char) :=
  ((splitChar sep (stripV cap)).map stripV).filter (fun y => !y.isEmpty)

/-- The `if match and match.group(1)` guard followed by item splitting. -/
def capItems (sep : Char) (capt : Option (List Char)) : List (List Char) :=
  match capt with
  | some cap => if cap.isEmpty then [] else pyItems sep cap
  | none => []

structure Sections where
  skills : List (List Char)
  education : List (List Char)
  experience : List (List Char)
  certifications : List (List Char)
  deriving DecidableEq

/-- Function `extract_info` from `main.py`. -/
def extractInfo (t : List Char) : Sections where
  skills := capItems ',' (skillsCap t)
  education := capItems '\n' (sectionCap "education".data t)
  experience :=
    match expSearch t with
    | some (some c) => if c.isEmpty then [] else pyItems '\n' c
    | _ => []
  certifications := capItems '\n' (sectionCap "certifications".data t)

/-! Section: The redactor (`anonymize_data`) and pipeline (`process_resume`) -/

/-- spaCy entity labels the source inspects (`PERSON`, `GPE`, `LOC`); anything
else is `OTHER`. -/
inductive EntLabel
  | PERSON
  | GPE
  | LOC
  | OTHER
  deriving DecidableEq

/-- An entity span as consumed by the source: its surface text and label. -/
structure Ent where
  text : List Char
  label : EntLabel
  deriving DecidableEq

/-- The `anonymized_info` dictionary.  `masked_name = none` models the
`masked_name` key being absent (it is only inserted when a PERSON exists). -/
structure Audit where
  masked_emails : List (List Char)
  masked_phones : List (List Char)
  masked_addresses : List (List Char)
  masked_name : Option (List Char)
  deriving DecidableEq

/-- Python `str.replace(pat, rep)` for nonempty `pat`: left-to-right,
non-overlapping, every occurrence.  (The scan consumes at least one character
per step, so `s.length` fuel always suffices.) -/
def replAux (pat rep : List Char) : Nat → List Char → List Char
  | 0, s => s
  | fuel + 1, s =>
    if pat ≠ [] ∧ startsWithL pat s = true then rep ++ replAux pat rep fuel (s.drop pat.length)
    else
      match s with
      | [] => []
      | c :: t => c :: replAux pat rep fuel t

def replaceAll (s pat rep : List Char) : List Char := replAux pat rep s.length s

/-- The segments of `s` between consecutive non-overlapping occurrences of
`pat` (Python `str.split(pat)`); `replaceAll` is their join with `rep`. -/
def splitPAux (pat : List Char) : Nat → List Char → List (List Char)
  | 0, s => [s]
  | fuel + 1, s =>
    if pat ≠ [] ∧ startsWithL pat s = true then [] :: splitPAux pat fuel (s.drop pat.length)
    else
      match s with
      | [] => [[]]
      | c :: t =>
        match splitPAux pat fuel t with
        | [] => [[c]]
        | h :: r => (c :: h) :: r

def splitP (s pat : List Char) : List (List Char) := splitPAux pat s.length s

/-- Interleave `sep` between the pieces. -/
def joinWith (sep : List Char) : List (List Char) → List Char
  | [] => []
  | [x] => x
  | x :: y :: r => x ++ sep ++ joinWith sep (y :: r)

/-- Python `[ent.text for ent in doc.ents if ent.label_ == "PERSON"]`. -/
def personsOf (ents : List Ent) : List (List Char) :=
  (ents.filter (fun e => e.label == EntLabel.PERSON)).map Ent.text

/-- Python `[ent.text for ent in doc.ents if ent.label_ in ["GPE", "LOC"]]`. -/
def locsOf (ents : List Ent) : List (List Char) :=
  (ents.filter (fun e => e.label == EntLabel.GPE || e.label == EntLabel.LOC)).map Ent.text

/-- The name step: first PERSON span (if any) replaced everywhere; returns the
new text and the recorded candidate name. -/
def namePass (s : List Char) (names : List (List Char)) : List Char × Option (List Char) :=
  match names with
  | [] => (s, none)
  | n :: _ => (replaceAll s n nameRepl, some n)

/-- The address step: every LOCATION surface string replaced everywhere, in
span order. -/
def addrPass (s : List Char) (addrs : List (List Char)) : List Char :=
  addrs.foldl (fun acc a => replaceAll acc a addrRepl) s

/-- Function `anonymize_data` from `main.py`.  The tagger models `nlp`; `none` models a
raised exception, which the source does not catch. -/
def anonymizeData (t : List Char) (tagger : List Char → Option (List Ent)) :
    Option (List Char × Audit) :=
  let emails := emailFind t
  let t1 := emailSub t
  let phones := phoneFind t1
  let t2 := phoneSub t1
  match tagger t2 with
  | none => none
  | some ents =>
    let np := namePass t2 (personsOf ents)
    some (addrPass np.1 (locsOf ents), ⟨emails, phones, locsOf ents, np.2⟩)

/-- JSON-like values appearing in the output dictionaries. -/
inductive JVal
  | vNull
  | vStr (s : List Char)
  | vList (l : List (List Char))
  deriving DecidableEq

/-- The result of `extract_info` as the dictionary it is in Python (insertion
order: skills, education, experience, certifications). -/
def extractInfoDict (t : List Char) : List (String × JVal) :=
  [("skills", JVal.vList (extractInfo t).skills),
   ("education", JVal.vList (extractInfo t).education),
   ("experience", JVal.vList (extractInfo t).experience),
   ("certifications", JVal.vList (extractInfo t).certifications)]

/-- Dictionary `combined_data` of `process_resume`: anonymized text, then the extracted
sections, then the audit fields, in Python dict insertion order (`masked_name`
is inserted last, only when present). -/
def combinedData (t : List Char) (tagger : List Char → Option (List Ent)) :
    Option (List (String × JVal)) :=
  match anonymizeData t tagger with
  | none => none
  | some (atx, aud) =>
    some ([("anonymized_resume_text", JVal.vStr atx)] ++ extractInfoDict atx ++
      [("masked_emails", JVal.vList aud.masked_emails),
       ("masked_phones", JVal.vList aud.masked_phones),
       ("masked_addresses", JVal.vList aud.masked_addresses)] ++
      (match aud.masked_name with
       | some n => [("masked_name", JVal.vStr n)]
       | none => []))

/-- Python `dict.get`. -/
def lookupK (l : List (String × JVal)) (k : String) : Option JVal :=
  match l with
  | [] => none
  | kv :: r => if kv.1 == k then some kv.2 else lookupK r k

/-- The global `output_schema_template` (all values are plain strings, so the
`isinstance(value_key, list)` branch of the remapping loop is dead). -/
def outputSchemaTemplate : List (String × String) :=
  [("Skill_Set", "skills"),
   ("Experience_Summary", "experience"),
   ("Anonymized_Resume_Text", "anonymized_resume_text"),
   ("Certifications_List", "certifications"),
   ("Education_Records", "education")]

/-- Function `process_resume` from the text stage onward: redact, extract, merge, then
remap through the schema template with `combined_data.get(value_key, None)`. -/
def processResume (t : List Char) (tagger : List Char → Option (List Ent)) :
    Option (List (String × JVal)) :=
  (combinedData t tagger).map (fun cd =>
    outputSchemaTemplate.map (fun kv => (kv.1, (lookupK cd kv.2).getD JVal.vNull)))

/-! Section: Lemmas: scanning -/

theorem getD_cons_drop (s : List Char) (p : Nat) (h : p < s.length) :
    s.getD p ' ' :: s.drop (p + 1) = s.drop p := by
  induction s generalizing p with
  | nil => simp at h
  | cons c t ih =>
    cases p with
    | zero => simp [List.getD]
    | succ q =>
      have hq : q < t.length := by simpa using h
      simpa [List.getD] using ih q hq

/-- If the scanner reports no matches, substitution returns the text unchanged. -/
theorem scanSub_of_scanFind_nil (f : List Char → Nat → Option (Nat × Nat))
    (repl : List Char) (s : List Char) :
    ∀ fuel p, scanFind f s fuel p = [] → scanSub f repl s fuel p = s.drop p := by
  intro fuel
  induction fuel with
  | zero => intro p _; rfl
  | succ n ih =>
    intro p hfind
    by_cases hp : p < s.length
    · cases hf : f s p with
      | some ge =>
        exfalso
        rw [scanFind, if_pos hp, hf] at hfind
        exact absurd hfind (by simp)
      | none =>
        rw [scanFind, if_pos hp, hf] at hfind
        rw [scanSub, if_pos hp, hf, ih (p + 1) hfind, getD_cons_drop s p hp]
    · rw [scanSub, if_neg hp]
      exact (List.drop_eq_nil_of_le (Nat.le_of_not_lt hp)).symm

theorem emailSub_of_no_match (s : List Char) (h : emailFind s = []) : emailSub s = s := by
  have h0 : scanFind emailM s s.length 0 = [] := by
    have := List.map_eq_nil.mp h
    exact this
  simpa using scanSub_of_scanFind_nil emailM emailRepl s s.length 0 h0

theorem nDigitsAt_le (s : List Char) (j n : Nat) (hn : 1 ≤ n) (h : nDigitsAt s j n = true) :
    j + n ≤ s.length := by
  unfold nDigitsAt at h
  have h1 : ((s.drop j).take n).length = n := by
    simpa using ((Bool.and_eq_true _ _).mp h).1
  have h2 : ((s.drop j).take n).length = min n (s.drop j).length := List.length_take n _
  have h3 : n ≤ (s.drop j).length := by
    rw [h2, Nat.min_def] at h1
    split at h1 <;> omega
  have h4 : (s.drop j).length = s.length - j := List.length_drop j s
  omega

theorem sepLazy_bound {α : Type} (s : List Char) (j : Nat) (k : Nat → Option α) (x : α)
    (h : sepLazy s j k = some x) : ∃ j2, j ≤ j2 ∧ j2 ≤ j + 1 ∧ k j2 = some x := by
  unfold sepLazy at h
  cases hk : k j with
  | some y =>
    rw [hk] at h
    simp only [] at h
    exact ⟨j, Nat.le_refl j, Nat.le_succ j, by rw [hk, h]⟩
  | none =>
    rw [hk] at h
    simp only [] at h
    cases hg : s.get? j with
    | none => rw [hg] at h; simp only [] at h; exact absurd h (by simp)
    | some c =>
      rw [hg] at h
      simp only [] at h
      by_cases hc : isSepC c = true
      · rw [if_pos hc] at h
        exact ⟨j + 1, Nat.le_succ j, Nat.le_refl _, h⟩
      · rw [if_neg hc] at h; exact absurd h (by simp)

theorem optCharG_bound {α : Type} (s : List Char) (c : Char) (j : Nat) (k : Nat → Option α)
    (x : α) (h : optCharG s c j k = some x) : ∃ j2, j ≤ j2 ∧ j2 ≤ j + 1 ∧ k j2 = some x := by
  unfold optCharG at h
  cases hb : (if s.get? j == some c then k (j + 1) else none) with
  | some y =>
    rw [hb] at h
    simp only [] at h
    by_cases hc : (s.get? j == some c) = true
    · rw [if_pos hc] at hb
      exact ⟨j + 1, Nat.le_succ j, Nat.le_refl _, by rw [hb, h]⟩
    · rw [if_neg hc] at hb; exact absurd hb (by simp)
  | none =>
    rw [hb] at h
    simp only [] at h
    exact ⟨j, Nat.le_refl j, Nat.le_succ j, h⟩

theorem phoneAlt1_bound {α : Type} (s : List Char) (j : Nat) (k : Nat → Option α) (x : α)
    (h : phoneAlt1 s j k = some x) :
    ∃ e, j + 10 ≤ e ∧ e ≤ s.length ∧ k e = some x := by
  unfold phoneAlt1 at h
  obtain ⟨j1, hj1l, hj1u, h1⟩ := optCharG_bound s '(' j _ x h
  by_cases hd1 : nDigitsAt s j1 3 = true
  · rw [if_pos hd1] at h1
    obtain ⟨j2, hj2l, hj2u, h2⟩ := optCharG_bound s ')' (j1 + 3) _ x h1
    obtain ⟨j3, hj3l, hj3u, h3⟩ := sepLazy_bound s j2 _ x h2
    by_cases hd2 : nDigitsAt s j3 3 = true
    · rw [if_pos hd2] at h3
      obtain ⟨j4, hj4l, hj4u, h4⟩ := sepLazy_bound s (j3 + 3) _ x h3
      by_cases hd3 : nDigitsAt s j4 4 = true
      · rw [if_pos hd3] at h4
        have hlen := nDigitsAt_le s j4 4 (by omega) hd3
        exact ⟨j4 + 4, by omega, hlen, h4⟩
      · rw [if_neg hd3] at h4; exact absurd h4 (by simp)
    · rw [if_neg hd2] at h3; exact absurd h3 (by simp)
  · rw [if_neg hd1] at h1; exact absurd h1 (by simp)

theorem phoneG2_bound {α : Type} (s : List Char) (j : Nat) (k : Nat → Option α) (x : α)
    (h : phoneG2 s j k = some x) :
    ∃ e, j + 10 ≤ e ∧ e ≤ s.length ∧ k e = some x := by
  unfold phoneG2 at h
  cases ha : phoneAlt1 s j k with
  | some y =>
    rw [ha] at h
    simp only [] at h
    rw [h] at ha
    exact phoneAlt1_bound s j k x ha
  | none =>
    rw [ha] at h
    simp only [] at h
    by_cases hd : nDigitsAt s j 10 = true
    · rw [if_pos hd] at h
      exact ⟨j + 10, Nat.le_refl _, nDigitsAt_le s j 10 (by omega) hd, h⟩
    · rw [if_neg hd] at h; exact absurd h (by simp)

theorem phoneD13_bound {α : Type} (s : List Char) (j : Nat) (k : Nat → Option α) (x : α)
    (h : phoneD13 s j k = some x) : ∃ j2, k j2 = some x := by
  unfold phoneD13 at h
  cases hc : (if nDigitsAt s j 3 then sepLazy s (j + 3) k else none) with
  | some z =>
    rw [hc] at h
    simp only [] at h
    by_cases hd : nDigitsAt s j 3 = true
    · rw [if_pos hd] at hc
      obtain ⟨j2, _, _, h2⟩ := sepLazy_bound s (j + 3) k z hc
      exact ⟨j2, by rw [h2, h]⟩
    · rw [if_neg hd] at hc; exact absurd hc (by simp)
  | none =>
    rw [hc] at h
    simp only [] at h
    cases he : (if nDigitsAt s j 2 then sepLazy s (j + 2) k else none) with
    | some z =>
      rw [he] at h
      simp only [] at h
      by_cases hd : nDigitsAt s j 2 = true
      · rw [if_pos hd] at he
        obtain ⟨j2, _, _, h2⟩ := sepLazy_bound s (j + 2) k z he
        exact ⟨j2, by rw [h2, h]⟩
      · rw [if_neg hd] at he; exact absurd he (by simp)
    | none =>
      rw [he] at h
      simp only [] at h
      by_cases hd : nDigitsAt s j 1 = true
      · rw [if_pos hd] at h
        obtain ⟨j2, _, _, h2⟩ := sepLazy_bound s (j + 1) k x h
        exact ⟨j2, h2⟩
      · rw [if_neg hd] at h; exact absurd h (by simp)

theorem phoneG1_bound {α : Type} (s : List Char) (i : Nat) (k : Nat → Option α) (x : α)
    (h : phoneG1 s i k = some x) : ∃ j, k j = some x := by
  unfold phoneG1 at h
  cases hb : optCharG s '+' i (fun j => phoneD13 s j k) with
  | some y =>
    rw [hb] at h
    simp only [] at h
    obtain ⟨j1, _, _, h1⟩ := optCharG_bound s '+' i _ y hb
    obtain ⟨j2, h2⟩ := phoneD13_bound s j1 k y h1
    exact ⟨j2, by rw [h2, h]⟩
  | none =>
    rw [hb] at h
    simp only [] at h
    exact ⟨i, h⟩

/-- A phone match has a group of at least 10 characters lying inside the text. -/
theorem phoneMatchAt_bound (s : List Char) (i : Nat) (g e : Nat)
    (h : phoneMatchAt s i = some (g, e)) : g + 10 ≤ e ∧ e ≤ s.length := by
  unfold phoneMatchAt at h
  by_cases hw : wordBoundary s i = true
  · rw [if_pos hw] at h
    obtain ⟨j, hj⟩ := phoneG1_bound s i _ (g, e) h
    obtain ⟨e0, he0l, he0u, hk⟩ := phoneG2_bound s j _ (g, e) hj
    by_cases hwb : wordBoundary s e0 = true
    · rw [if_pos hwb] at hk
      have : j = g ∧ e0 = e := by
        have := Option.some.inj hk
        exact ⟨congrArg Prod.fst this, congrArg Prod.snd this⟩
      omega
    · rw [if_neg hwb] at hk; exact absurd hk (by simp)
  · rw [if_neg hw] at h
    exact absurd h (by simp)

/-- Every reported match satisfies the matcher at its start position. -/
theorem scanFind_sound (f : List Char → Nat → Option (Nat × Nat)) (s : List Char) :
    ∀ fuel p x, x ∈ scanFind f s fuel p → f s x.1 = some (x.2.1, x.2.2) := by
  intro fuel
  induction fuel with
  | zero => intro p x hx; simp [scanFind] at hx
  | succ n ih =>
    intro p x hx
    rw [scanFind] at hx
    by_cases hp : p < s.length
    · rw [if_pos hp] at hx
      cases hf : f s p with
      | some ge =>
        rw [hf] at hx
        rcases List.mem_cons.mp hx with h1 | h2
        · rw [h1]; exact hf
        · exact ih ge.2 x h2
      | none =>
        rw [hf] at hx
        exact ih (p + 1) x hx
    · rw [if_neg hp] at hx
      simp at hx

/-- A phone group slice is never empty, so the `if p[1]` filter drops nothing. -/
theorem phoneFind_nil_scanFind (s : List Char) (h : phoneFind s = []) :
    scanFind phoneMatchAt s s.length 0 = [] := by
  cases hx : scanFind phoneMatchAt s s.length 0 with
  | nil => rfl
  | cons x r =>
    exfalso
    have hmem : x ∈ scanFind phoneMatchAt s s.length 0 := by
      rw [hx]; exact List.mem_cons_self x r
    have hsound := scanFind_sound phoneMatchAt s s.length 0 x hmem
    have hb := phoneMatchAt_bound s x.1 x.2.1 x.2.2 hsound
    have hlen : (sliceL s x.2.1 x.2.2).length = x.2.2 - x.2.1 := by
      unfold sliceL
      rw [List.length_take, List.length_drop]
      omega
    have hne : (sliceL s x.2.1 x.2.2).isEmpty = false := by
      cases hsl : sliceL s x.2.1 x.2.2 with
      | nil => rw [hsl] at hlen; simp at hlen; omega
      | cons a b => rfl
    have hmem2 : sliceL s x.2.1 x.2.2 ∈
        (scanFind phoneMatchAt s s.length 0).map (fun y => sliceL s y.2.1 y.2.2) := by
      rw [hx]; simp
    unfold phoneFind at h
    have := List.filter_eq_nil.mp h _ hmem2
    simp [hne] at this

theorem phoneSub_of_no_match (s : List Char) (h : phoneFind s = []) : phoneSub s = s := by
  simpa using scanSub_of_scanFind_nil phoneMatchAt phoneRepl s s.length 0
    (phoneFind_nil_scanFind s h)

/-! Section: Lemmas: substrings -/

theorem startsWithL_refl (l : List Char) : startsWithL l l = true := by
  induction l with
  | nil => rfl
  | cons c t ih => simp [startsWithL, ih]

theorem startsWithL_take (s : List Char) (n : Nat) : startsWithL (s.take n) s = true := by
  induction s generalizing n with
  | nil => simp [startsWithL]
  | cons c t ih =>
    cases n with
    | zero => rfl
    | succ m => simp [startsWithL, ih m]

theorem sublistOfB_of_startsWithL (pat s : List Char) (h : startsWithL pat s = true) :
    sublistOfB pat s = true := by
  cases s with
  | nil => exact h
  | cons c t => simp [sublistOfB, h]

theorem sublistOfB_cons_of (pat t : List Char) (c : Char) (h : sublistOfB pat t = true) :
    sublistOfB pat (c :: t) = true := by
  simp [sublistOfB, h]

theorem drop_take_sublistOfB (a n : Nat) : ∀ s : List Char,
    sublistOfB ((s.drop a).take n) s = true := by
  induction a with
  | zero =>
    intro s
    simp only [List.drop_zero]
    exact sublistOfB_of_startsWithL _ s (startsWithL_take s n)
  | succ m ih =>
    intro s
    cases s with
    | nil => simp [List.drop_nil, List.take_nil, sublistOfB, startsWithL]
    | cons c t =>
      simp only [List.drop_succ_cons]
      exact sublistOfB_cons_of _ t c (ih t)

/-- Any contiguous region of a text occurs in it. -/
theorem sliceL_sublistOfB (s : List Char) (a b : Nat) :
    sublistOfB (sliceL s a b) s = true :=
  drop_take_sublistOfB a (b - a) s

theorem splitPAux_zero (pat : List Char) (s : List Char) : splitPAux pat 0 s = [s] := rfl

theorem splitPAux_succ (pat : List Char) (n : Nat) (s : List Char) :
    splitPAux pat (n + 1) s =
      if pat ≠ [] ∧ startsWithL pat s = true then [] :: splitPAux pat n (s.drop pat.length)
      else
        match s with
        | [] => [[]]
        | c :: t =>
          match splitPAux pat n t with
          | [] => [[c]]
          | h :: r => (c :: h) :: r := rfl

theorem replAux_succ (pat rep : List Char) (n : Nat) (s : List Char) :
    replAux pat rep (n + 1) s =
      if pat ≠ [] ∧ startsWithL pat s = true then
        rep ++ replAux pat rep n (s.drop pat.length)
      else
        match s with
        | [] => []
        | c :: t => c :: replAux pat rep n t := rfl

/-! Section: Lemmas: `replaceAll` is the join of the occurrence split -/

theorem splitPAux_ne_nil (pat : List Char) (fuel : Nat) (s : List Char) :
    splitPAux pat fuel s ≠ [] := by
  cases fuel with
  | zero => simp [splitPAux]
  | succ n =>
    rw [splitPAux_succ]
    by_cases hb : pat ≠ [] ∧ startsWithL pat s = true
    · rw [if_pos hb]; simp
    · rw [if_neg hb]
      cases s with
      | nil => simp
      | cons c t =>
        cases h : splitPAux pat n t with
        | nil => simp [h]
        | cons a b => simp [h]

/-- Python `replace` equals joining the `split` segments with the replacement. -/
theorem replAux_eq_joinWith (pat rep : List Char) :
    ∀ fuel s, replAux pat rep fuel s = joinWith rep (splitPAux pat fuel s) := by
  intro fuel
  induction fuel with
  | zero => intro s; rfl
  | succ n ih =>
    intro s
    rw [replAux_succ, splitPAux_succ]
    by_cases hb : pat ≠ [] ∧ startsWithL pat s = true
    · rw [if_pos hb, if_pos hb]
      cases hs : splitPAux pat n (s.drop pat.length) with
      | nil => exact absurd hs (splitPAux_ne_nil pat n _)
      | cons h r =>
        rw [joinWith]
        rw [ih (s.drop pat.length), hs]
        simp
    · rw [if_neg hb, if_neg hb]
      cases s with
      | nil => rfl
      | cons c t =>
        cases hs : splitPAux pat n t with
        | nil => exact absurd hs (splitPAux_ne_nil pat n t)
        | cons h r =>
          cases r with
          | nil => simp [joinWith, ih t, hs]
          | cons y r2 => simp [joinWith, ih t, hs]

theorem replaceAll_eq_joinWith (s pat rep : List Char) :
    replaceAll s pat rep = joinWith rep (splitP s pat) :=
  replAux_eq_joinWith pat rep s.length s

/-- The head segment of the split is an initial segment of the text. -/
theorem splitPAux_head_sw (pat : List Char) :
    ∀ fuel s h r, splitPAux pat fuel s = h :: r → startsWithL h s = true := by
  intro fuel
  induction fuel with
  | zero =>
    intro s h r he
    rw [splitPAux_zero] at he
    have : h = s := by
      have := List.cons.inj he
      exact this.1.symm
    rw [this]; exact startsWithL_refl s
  | succ n ih =>
    intro s h r he
    rw [splitPAux_succ] at he
    by_cases hb : pat ≠ [] ∧ startsWithL pat s = true
    · rw [if_pos hb] at he
      have : h = [] := (List.cons.inj he).1.symm
      rw [this]
      cases s <;> rfl
    · rw [if_neg hb] at he
      cases s with
      | nil =>
        have : h = [] := (List.cons.inj he).1.symm
        rw [this]; rfl
      | cons c t =>
        cases hs : splitPAux pat n t with
        | nil => exact absurd hs (splitPAux_ne_nil pat n t)
        | cons h2 r2 =>
          simp only [] at he
          rw [hs] at he
          simp only [] at he
          have hh : h = c :: h2 := (List.cons.inj he).1.symm
          rw [hh]
          simp [startsWithL, ih t h2 r2 hs]

theorem startsWithL_trans (a b c : List Char) (hab : startsWithL a b = true)
    (hbc : startsWithL b c = true) : startsWithL a c = true := by
  induction a generalizing b c with
  | nil => rfl
  | cons x a2 ih =>
    cases b with
    | nil => exact absurd hab (by simp [startsWithL])
    | cons y b2 =>
      cases c with
      | nil => exact absurd hbc (by simp [startsWithL])
      | cons z c2 =>
        rw [startsWithL, Bool.and_eq_true] at hab hbc ⊢
        have hxy : x = y := eq_of_beq hab.1
        have hyz : y = z := eq_of_beq hbc.1
        exact ⟨by rw [hxy, hyz]; exact beq_self_eq_true z, ih b2 c2 hab.2 hbc.2⟩

/-- No segment of the split contains the pattern: every occurrence is consumed. -/
theorem splitPAux_no_occurrence (pat : List Char) (hp : pat ≠ []) :
    ∀ fuel s, s.length ≤ fuel →
      ∀ seg ∈ splitPAux pat fuel s, sublistOfB pat seg = false := by
  intro fuel
  induction fuel with
  | zero =>
    intro s hs seg hseg
    have hnil : s = [] := List.eq_nil_of_length_eq_zero (Nat.le_zero.mp hs)
    rw [hnil, splitPAux_zero] at hseg
    have : seg = [] := by simpa using hseg
    rw [this]
    cases pat with
    | nil => exact absurd rfl hp
    | cons a b => rfl
  | succ n ih =>
    intro s hs seg hseg
    rw [splitPAux_succ] at hseg
    by_cases hb : pat ≠ [] ∧ startsWithL pat s = true
    · rw [if_pos hb] at hseg
      rcases List.mem_cons.mp hseg with h1 | h2
      · rw [h1]
        cases pat with
        | nil => exact absurd rfl hp
        | cons a b => rfl
      · have hlen : (s.drop pat.length).length ≤ n := by
          rw [List.length_drop]
          cases pat with
          | nil => exact absurd rfl hp
          | cons a b => simp at hs ⊢; omega
        exact ih (s.drop pat.length) hlen seg h2
    · rw [if_neg hb] at hseg
      cases s with
      | nil =>
        have : seg = [] := by simpa using hseg
        rw [this]
        cases pat with
        | nil => exact absurd rfl hp
        | cons a b => rfl
      | cons c t =>
        cases hsp : splitPAux pat n t with
        | nil => exact absurd hsp (splitPAux_ne_nil pat n t)
        | cons h2 r2 =>
          simp only [] at hseg
          rw [hsp] at hseg
          simp only [] at hseg
          have hlent : t.length ≤ n := by simp at hs; omega
          rcases List.mem_cons.mp hseg with h1 | h2m
          · rw [h1]
            have hnot : startsWithL pat (c :: t) = false := by
              by_cases hsw : startsWithL pat (c :: t) = true
              · exact absurd ⟨hp, hsw⟩ hb
              · simpa using hsw
            have hh2 : sublistOfB pat h2 = false :=
              ih t hlent h2 (by rw [hsp]; exact List.mem_cons_self h2 r2)
            have hsw2 : startsWithL h2 t = true := splitPAux_head_sw pat n t h2 r2 hsp
            rw [sublistOfB]
            rw [Bool.or_eq_false_iff]
            constructor
            · by_contra hswc
              have hswc2 : startsWithL pat (c :: h2) = true := by
                cases hx : startsWithL pat (c :: h2) with
                | true => rfl
                | false => rw [hx] at hswc; exact absurd rfl hswc
              have : startsWithL (c :: h2) (c :: t) = true := by
                rw [startsWithL, Bool.and_eq_true]
                exact ⟨beq_self_eq_true c, hsw2⟩
              have := startsWithL_trans pat (c :: h2) (c :: t) hswc2 this
              rw [this] at hnot
              exact absurd hnot (by simp)
            · exact hh2
          · exact ih t hlent seg (by rw [hsp]; exact List.mem_cons_of_mem h2 h2m)

/-! Section: Lemmas: section captures -/

theorem getD_eq_of_get?_some (s : List Char) (e : Nat) (a : Char) (hg : s.get? e = some a) :
    s.getD e ' ' = a := by
  induction s generalizing e with
  | nil => simp [List.get?] at hg
  | cons c t ih =>
    cases e with
    | zero =>
      have : c = a := by simpa [List.get?] using hg
      simpa [List.getD] using this
    | succ m =>
      rw [List.get?] at hg
      simpa [List.getD] using ih m hg

theorem getD_eq_of_get?_none (s : List Char) (e : Nat) (hg : s.get? e = none) :
    s.getD e ' ' = ' ' := by
  induction s generalizing e with
  | nil => cases e <;> simp [List.getD]
  | cons c t ih =>
    cases e with
    | zero => simp [List.get?] at hg
    | succ m =>
      rw [List.get?] at hg
      simpa [List.getD] using ih m hg

theorem capAux_zero (double : Bool) (s : List Char) (e : Nat) : capAux double s 0 e = [] := rfl

theorem capAux_succ (double : Bool) (s : List Char) (n e : Nat) :
    capAux double s (n + 1) e =
      if stopAt double s e || dollarAt s e then []
      else s.getD e ' ' :: capAux double s n (e + 1) := rfl

theorem capAux_head (double : Bool) (s : List Char) :
    ∀ fuel e y l, capAux double s fuel e = y :: l → y = s.getD e ' ' := by
  intro fuel
  cases fuel with
  | zero => intro e y l h; rw [capAux_zero] at h; exact absurd h (by simp)
  | succ n =>
    intro e y l h
    rw [capAux_succ] at h
    by_cases hc : (stopAt double s e || dollarAt s e) = true
    · rw [if_pos hc] at h; exact absurd h (by simp)
    · rw [if_neg hc] at h
      exact ((List.cons.inj h).1).symm

/-- The skills capture `(.*?)(\n|$)` never contains a line break. -/
theorem capAux_skills_no_newline (s : List Char) :
    ∀ fuel e c, c ∈ capAux false s fuel e → c ≠ '\n' := by
  intro fuel
  induction fuel with
  | zero => intro e c hc; rw [capAux_zero] at hc; simp at hc
  | succ n ih =>
    intro e c hc
    rw [capAux_succ] at hc
    by_cases hcond : (stopAt false s e || dollarAt s e) = true
    · rw [if_pos hcond] at hc; simp at hc
    · rw [if_neg hcond] at hc
      rcases List.mem_cons.mp hc with h1 | h2
      · intro hEq
        rw [Bool.or_eq_true] at hcond
        push_neg at hcond
        have hstop : stopAt false s e = false := by
          cases hx : stopAt false s e with
          | true => exact absurd hx hcond.1
          | false => rfl
        have hstop2 : s.get? e ≠ some '\n' := by
          unfold stopAt at hstop
          intro hcontra
          rw [hcontra] at hstop
          simp at hstop
        cases hg : s.get? e with
        | some a =>
          have hgd : s.getD e ' ' = a := getD_eq_of_get?_some s e a hg
          have ha : a = '\n' := by rw [← hgd, ← h1]; exact hEq
          rw [ha] at hg
          exact hstop2 hg
        | none =>
          have hgd : s.getD e ' ' = ' ' := getD_eq_of_get?_none s e hg
          rw [h1, hgd] at hEq
          exact absurd hEq (by decide)
      · exact ih (e + 1) c h2
  
/-- The blank-line-bounded capture `(.*?)(\n\n|$)` never contains a blank line. -/
theorem capAux_no_blankline (s : List Char) :
    ∀ fuel e, sublistOfB ['\n', '\n'] (capAux true s fuel e) = false := by
  intro fuel
  induction fuel with
  | zero => intro e; rw [capAux_zero]; rfl
  | succ n ih =>
    intro e
    rw [capAux_succ]
    by_cases hcond : (stopAt true s e || dollarAt s e) = true
    · rw [if_pos hcond]; rfl
    · rw [if_neg hcond]
      rw [sublistOfB, Bool.or_eq_false_iff]
      refine ⟨?_, ih (e + 1)⟩
      rw [Bool.or_eq_true] at hcond
      push_neg at hcond
      have hstop : stopAt true s e = false := by
        cases hx : stopAt true s e with
        | true => exact absurd hx hcond.1
        | false => rfl
      have hstop2 : ¬(s.get? e = some '\n' ∧ s.get? (e + 1) = some '\n') := by
        unfold stopAt at hstop
        intro hcontra
        rw [hcontra.1, hcontra.2] at hstop
        simp at hstop
      rw [startsWithL]
      cases hrest : capAux true s n (e + 1) with
      | nil => simp [startsWithL]
      | cons y l =>
        have hy : y = s.getD (e + 1) ' ' := capAux_head true s n (e + 1) y l hrest
        rw [startsWithL, Bool.and_eq_false_iff]
        by_cases hce : s.getD e ' ' = '\n'
        · right
          rw [Bool.and_eq_false_iff]
          left
          by_cases hy2 : y = '\n'
          · exfalso
            have hge : s.get? e = some '\n' := by
              cases hg : s.get? e with
              | some a =>
                have hgd := getD_eq_of_get?_some s e a hg
                have ha : a = '\n' := by rw [← hgd]; exact hce
                exact congrArg some ha
              | none =>
                rw [getD_eq_of_get?_none s e hg] at hce
                exact absurd hce (by decide)
            have hge1 : s.get? (e + 1) = some '\n' := by
              cases hg : s.get? (e + 1) with
              | some a =>
                have hgd := getD_eq_of_get?_some s (e + 1) a hg
                have ha : a = '\n' := by rw [← hgd, ← hy]; exact hy2
                exact congrArg some ha
              | none =>
                rw [hy, getD_eq_of_get?_none s (e + 1) hg] at hy2
                exact absurd hy2 (by decide)
            exact hstop2 ⟨hge, hge1⟩
          · rw [beq_eq_false_iff_ne]
            exact Ne.symm hy2
        · left
          rw [beq_eq_false_iff_ne]
          exact Ne.symm hce

/-- Search `findKwAux` returns the first matching position at or after its start. -/
theorem findKwAux_first (s kw : List Char) :
    ∀ fuel p r, findKwAux s kw fuel p = some r →
      p ≤ r ∧ ciAt s kw r = true ∧ ∀ q, p ≤ q → q < r → ciAt s kw q = false := by
  intro fuel
  induction fuel with
  | zero => intro p r h; exact absurd h (by simp [findKwAux])
  | succ n ih =>
    intro p r h
    rw [findKwAux] at h
    by_cases hc : ciAt s kw p = true
    · rw [if_pos hc] at h
      have : p = r := Option.some.inj h
      subst this
      exact ⟨Nat.le_refl p, hc, fun q hq1 hq2 => absurd (Nat.lt_of_le_of_lt hq1 hq2) (Nat.lt_irrefl p)⟩
    · rw [if_neg hc] at h
      obtain ⟨h1, h2, h3⟩ := ih (p + 1) r h
      refine ⟨by omega, h2, fun q hq1 hq2 => ?_⟩
      by_cases hqp : q = p
      · rw [hqp]
        cases hx : ciAt s kw p with
        | true => exact absurd hx hc
        | false => rfl
      · exact h3 q (by omega) hq2

/-- The section search uses only the first occurrence of the keyword. -/
theorem findKw_first (s kw : List Char) (r : Nat) (h : findKw s kw = some r) :
    ciAt s kw r = true ∧ ∀ q, q < r → ciAt s kw q = false := by
  obtain ⟨_, h2, h3⟩ := findKwAux_first s kw (s.length + 1) 0 r h
  exact ⟨h2, fun q hq => h3 q (Nat.zero_le q) hq⟩

/-! Section: Lemmas: item lists -/

theorem mem_splitChar (sep : Char) :
    ∀ (l : List Char) (y : List Char), y ∈ splitChar sep l → ∀ c ∈ y, c ∈ l := by
  intro l
  induction l with
  | nil =>
    intro y hy c hc
    simp [splitChar] at hy
    rw [hy] at hc
    simp at hc
  | cons a t ih =>
    intro y hy c hc
    rw [splitChar] at hy
    by_cases ha : (a == sep) = true
    · rw [if_pos ha] at hy
      rcases List.mem_cons.mp hy with h1 | h2
      · rw [h1] at hc; simp at hc
      · exact List.mem_cons_of_mem a (ih y h2 c hc)
    · rw [if_neg ha] at hy
      cases hs : splitChar sep t with
      | nil =>
        rw [hs] at hy
        have : y = [a] := by simpa using hy
        rw [this] at hc
        have : c = a := by simpa using hc
        rw [this]; exact List.mem_cons_self a t
      | cons h r =>
        rw [hs] at hy
        rcases List.mem_cons.mp hy with h1 | h2
        · rw [h1] at hc
          rcases List.mem_cons.mp hc with hc1 | hc2
          · rw [hc1]; exact List.mem_cons_self a t
          · exact List.mem_cons_of_mem a
              (ih h (by rw [hs]; exact List.mem_cons_self h r) c hc2)
        · exact List.mem_cons_of_mem a
            (ih y (by rw [hs]; exact List.mem_cons_of_mem h h2) c hc)

theorem mem_dropWhileC (p : Char → Bool) :
    ∀ (l : List Char) (c : Char), c ∈ l.dropWhile p → c ∈ l := by
  intro l
  induction l with
  | nil => intro c hc; simp [List.dropWhile] at hc
  | cons a t ih =>
    intro c hc
    rw [List.dropWhile] at hc
    by_cases ha : p a = true
    · rw [ha] at hc
      exact List.mem_cons_of_mem a (ih c hc)
    · have : p a = false := by simpa using ha
      rw [this] at hc
      exact hc

theorem mem_stripV (l : List Char) (c : Char) (h : c ∈ stripV l) : c ∈ l := by
  unfold stripV at h
  rw [List.mem_reverse] at h
  have h2 := mem_dropWhileC isSpaceC _ c h
  rw [List.mem_reverse] at h2
  exact mem_dropWhileC isSpaceC l c h2

theorem hd_dropWhile (p : Char → Bool) :
    ∀ (l : List Char) (y : Char) (t : List Char), l.dropWhile p = y :: t → p y = false := by
  intro l
  induction l with
  | nil => intro y t h; simp [List.dropWhile] at h
  | cons a r ih =>
    intro y t h
    rw [List.dropWhile] at h
    by_cases ha : p a = true
    · rw [ha] at h
      exact ih y t h
    · have ha2 : p a = false := by simpa using ha
      rw [ha2] at h
      have : a = y := (List.cons.inj h).1
      rw [← this]; exact ha2

theorem getLast?_dropWhile (p : Char → Bool) :
    ∀ (l : List Char) (y : Char) (t : List Char), l.dropWhile p = y :: t →
      (y :: t).getLast? = l.getLast? := by
  intro l
  induction l with
  | nil => intro y t h; simp [List.dropWhile] at h
  | cons a r ih =>
    intro y t h
    rw [List.dropWhile] at h
    by_cases ha : p a = true
    · rw [ha] at h
      rw [ih y t h]
      cases r with
      | nil => simp [List.dropWhile] at h
      | cons b r2 => simp [List.getLast?_cons_cons]
    · have ha2 : p a = false := by simpa using ha
      rw [ha2] at h
      simp only [] at h
      rw [h]

/-- A nonempty stripped string does not begin with whitespace. -/
theorem stripV_head (l : List Char) (y : Char) (t : List Char) (h : stripV l = y :: t) :
    isSpaceC y = false := by
  unfold stripV at h
  set A := l.dropWhile isSpaceC with hA
  set X := A.reverse.dropWhile isSpaceC with hX
  have hXne : X ≠ [] := by
    intro hc
    rw [hc] at h
    simp at h
  obtain ⟨x0, X2, hX0⟩ := List.exists_cons_of_ne_nil hXne
  have hlast : X.getLast? = A.reverse.getLast? := by
    rw [hX0]
    exact getLast?_dropWhile isSpaceC A.reverse x0 X2 (by rw [← hX0])
  have hhead : (X.reverse).head? = X.getLast? := by
    exact List.head?_reverse X
  have hyx : (X.reverse).head? = some y := by rw [h]; rfl
  have hAlast : A.reverse.getLast? = A.head? := List.getLast?_reverse A
  have hyA : A.head? = some y := by
    rw [← hAlast, ← hlast, ← hhead, hyx]
  cases hAc : A with
  | nil => rw [hAc] at hyA; simp at hyA
  | cons a0 A2 =>
    have : a0 = y := by rw [hAc] at hyA; simpa using hyA
    rw [← this]
    exact hd_dropWhile isSpaceC l a0 A2 (by rw [← hAc, hA])

/-- A nonempty stripped string does not end with whitespace. -/
theorem stripV_last (l : List Char) (y : Char) (t : List Char)
    (h : (stripV l).reverse = y :: t) : isSpaceC y = false := by
  unfold stripV at h
  rw [List.reverse_reverse] at h
  exact hd_dropWhile isSpaceC _ y t h

/-! Section: Lemmas: item shape -/

theorem mem_pyItems_chars (sep : Char) (cap : List Char) (x : List Char)
    (hx : x ∈ pyItems sep cap) : ∀ c ∈ x, c ∈ cap := by
  intro c hc
  unfold pyItems at hx
  have hx2 := (List.mem_filter.mp hx).1
  obtain ⟨y, hy, hxy⟩ := List.mem_map.mp hx2
  rw [← hxy] at hc
  have hc2 := mem_stripV y c hc
  have hc3 := mem_splitChar sep (stripV cap) y hy c hc2
  exact mem_stripV cap c hc3

theorem mem_pyItems_shape (sep : Char) (cap : List Char) (x : List Char)
    (hx : x ∈ pyItems sep cap) :
    x ≠ [] ∧ (∀ y r, x = y :: r → isSpaceC y = false) ∧
      (∀ y r, x.reverse = y :: r → isSpaceC y = false) := by
  unfold pyItems at hx
  have hne := (List.mem_filter.mp hx).2
  have hx2 := (List.mem_filter.mp hx).1
  obtain ⟨y, _, hxy⟩ := List.mem_map.mp hx2
  refine ⟨?_, ?_, ?_⟩
  · intro hc
    rw [hc] at hne
    simp at hne
  · intro z r hzr
    rw [← hxy] at hzr
    exact stripV_head y z r hzr
  · intro z r hzr
    rw [← hxy] at hzr
    exact stripV_last y z r hzr

theorem mem_capItems (sep : Char) (capt : Option (List Char)) (x : List Char)
    (hx : x ∈ capItems sep capt) : ∃ cap, capt = some cap ∧ x ∈ pyItems sep cap := by
  unfold capItems at hx
  cases capt with
  | none => simp at hx
  | some cap =>
    simp only [] at hx
    by_cases hc : cap.isEmpty = true
    · rw [if_pos hc] at hx; simp at hx
    · rw [if_neg hc] at hx
      exact ⟨cap, rfl, hx⟩

/-- Any capture the experience matcher reports comes from the Work History
branch and is a blank-line-bounded lazy capture. -/
theorem expSearchAux_cap (s : List Char) :
    ∀ fuel p c, expSearchAux s fuel p = some (some c) →
      ∃ j, c = capAux true s (s.length + 1) j := by
  intro fuel
  induction fuel with
  | zero => intro p c h; exact absurd h (by simp [expSearchAux])
  | succ n ih =>
    intro p c h
    rw [expSearchAux] at h
    by_cases h1 : ciAt s "experience".data p = true
    · rw [if_pos h1] at h
      exact absurd (Option.some.inj h) (by simp)
    · rw [if_neg h1] at h
      by_cases h2 : ciAt s "work history".data p = true
      · rw [if_pos h2] at h
        have := Option.some.inj h
        exact ⟨runEnd colonSpace s (p + 12), (Option.some.inj this).symm⟩
      · rw [if_neg h2] at h
        exact ih (p + 1) c h

theorem sectionCap_form (kw s c : List Char) (h : sectionCap kw s = some c) :
    ∃ j, c = capAux true s (s.length + 1) j := by
  unfold sectionCap at h
  cases hf : findKw s kw with
  | none => rw [hf] at h; exact absurd h (by simp)
  | some p =>
    rw [hf] at h
    simp only [] at h
    exact ⟨runEnd colonSpace s (p + kw.length), (Option.some.inj h).symm⟩

/-- Characters of a skills capture come from the single-line lazy capture. -/
theorem skillsCap_form (s c : List Char) (h : skillsCap s = some c) :
    ∃ j, c = capAux false s (s.length + 1) j := by
  unfold skillsCap at h
  cases hf : findKw s "skill".data with
  | none => rw [hf] at h; exact absurd h (by simp)
  | some p =>
    rw [hf] at h
    simp only [] at h
    exact ⟨_, (Option.some.inj h).symm⟩

theorem mem_emailFind (s e : List Char) (h : e ∈ emailFind s) : sublistOfB e s = true := by
  unfold emailFind at h
  obtain ⟨x, _, hx⟩ := List.mem_map.mp h
  rw [← hx]
  exact sliceL_sublistOfB s x.1 x.2.2

theorem mem_phoneFind (s p : List Char) (h : p ∈ phoneFind s) : sublistOfB p s = true := by
  unfold phoneFind at h
  have h2 := (List.mem_filter.mp h).1
  obtain ⟨x, _, hx⟩ := List.mem_map.mp h2
  rw [← hx]
  exact sliceL_sublistOfB s x.2.1 x.2.2

/-! Section: Claims -/

/-- Claim C7: redaction applies its passes in the strict order email, then
phone, then entity: the phone matcher runs against the post-email text, and
the entity tagger is invoked exactly once, against the post-phone text, with
all PERSON and LOCATION spans taken from that single invocation.  The final
two conjuncts show the ordering is observable: a ten-digit email local part is
a phone match on the raw text but not on the post-email text. -/
theorem C7_pass_order :
    (∀ (t : List Char) (tagger : List Char → Option (List Ent)),
      anonymizeData t tagger =
        match tagger (phoneSub (emailSub t)) with
        | none => none
        | some ents =>
          some (addrPass (namePass (phoneSub (emailSub t)) (personsOf ents)).1 (locsOf ents),
            ⟨emailFind t, phoneFind (emailSub t), locsOf ents,
              (namePass (phoneSub (emailSub t)) (personsOf ents)).2⟩)) ∧
    (phoneFind "5551234567@a.com".data).length = 1 ∧
    phoneFind (emailSub "5551234567@a.com".data) = [] := by
  refine ⟨fun t tagger => rfl, by decide, by decide⟩

/-- Claim C9: on the scenario input with a tagger returning no spans, the
audited emails are exactly `jane@example.com`, the audited phones are the
single match `555-123-4567` (which normalizes to 10 digits), the anonymized
text contains both placeholders, and the skills extracted from it are
Python, SQL, Go. -/
theorem C9_scenario :
    anonymizeData "Contact: jane@example.com or 555-123-4567. Skills: Python, SQL, Go".data
        (fun _ => some []) =
      some ("Contact: ***@***.com or XXX-XXX-XXXX. Skills: Python, SQL, Go".data,
        ⟨["jane@example.com".data], ["555-123-4567".data], [], none⟩) ∧
    (("555-123-4567".data).filter Char.isDigit).length = 10 ∧
    sublistOfB emailRepl
      "Contact: ***@***.com or XXX-XXX-XXXX. Skills: Python, SQL, Go".data = true ∧
    sublistOfB phoneRepl
      "Contact: ***@***.com or XXX-XXX-XXXX. Skills: Python, SQL, Go".data = true ∧
    (extractInfo "Contact: ***@***.com or XXX-XXX-XXXX. Skills: Python, SQL, Go".data).skills
      = ["Python".data, "SQL".data, "Go".data] := by
  refine ⟨by decide, by decide, by decide, by decide, by decide⟩

/-- Claim C4 (code bug): the experience pattern
`Experience|Work History[:\s]*(.*?)(\n\n|$)` groups as
`Experience` OR `Work History...capture...`, so a match on the keyword
`Experience` carries no capture group and the extracted experience list is
empty; only a `Work History` header ever produces items. -/
theorem C4_code_eval :
    (extractInfo "Experience:\nBuilt APIs at Acme\n\nEducation: BSc".data).experience = [] ∧
    expSearch "Experience:\nBuilt APIs at Acme\n\nEducation: BSc".data = some none ∧
    (extractInfo "Work History:\nBuilt APIs\n\nEducation: BSc".data).experience
      = ["Built APIs".data] := by
  refine ⟨by decide, by decide, by decide⟩

/-- Claim C1 (counterexample): audited PII strings can reappear verbatim in
the anonymized output.  A recorded phone survives at a second occurrence the
matcher rejects (`x555-...` has no word boundary before the digits); a
recorded email survives when a trailing digit spoils the TLD boundary; and a
candidate name ending in `]A` is recreated by its own replacement. -/
theorem C1_counterexample :
    (anonymizeData "555-123-4567 x555-123-4567".data (fun _ => some []) =
      some ("XXX-XXX-XXXX x555-123-4567".data,
        ⟨[], ["555-123-4567".data], [], none⟩)) ∧
    sublistOfB "555-123-4567".data "XXX-XXX-XXXX x555-123-4567".data = true ∧
    (anonymizeData "jane@example.com jane@example.com1".data (fun _ => some []) =
      some ("***@***.com jane@example.com1".data,
        ⟨["jane@example.com".data], [], [], none⟩)) ∧
    sublistOfB "jane@example.com".data "***@***.com jane@example.com1".data = true ∧
    (anonymizeData "NAME]AA".data (fun _ => some [⟨"NAME]A".data, EntLabel.PERSON⟩]) =
      some ("[CANDIDATE NAME]A".data, ⟨[], [], [], some "NAME]A".data⟩)) ∧
    sublistOfB "NAME]A".data "[CANDIDATE NAME]A".data = true := by
  refine ⟨by decide, by decide, by decide, by decide, by decide, by decide⟩

/-- Claim C1 (amended): the recoverability half of the audit invariant holds —
every audited email appears verbatim in the input text, and every audited
phone appears verbatim in the post-email text the phone pass ran on. -/
theorem C1_amended (t : List Char) (tagger : List Char → Option (List Ent))
    (txt : List Char) (aud : Audit) (h : anonymizeData t tagger = some (txt, aud)) :
    (∀ e ∈ aud.masked_emails, sublistOfB e t = true) ∧
    (∀ p ∈ aud.masked_phones, sublistOfB p (emailSub t) = true) := by
  simp only [anonymizeData] at h
  cases ht : tagger (phoneSub (emailSub t)) with
  | none => rw [ht] at h; simp at h
  | some ents =>
    rw [ht] at h
    simp only [] at h
    have h2 := Option.some.inj h
    have haud : aud = ⟨emailFind t, phoneFind (emailSub t), locsOf ents,
        (namePass (phoneSub (emailSub t)) (personsOf ents)).2⟩ := (congrArg Prod.snd h2).symm
    constructor
    · intro e he
      rw [haud] at he
      exact mem_emailFind t e he
    · intro p hp
      rw [haud] at hp
      exact mem_phoneFind (emailSub t) p hp

theorem C1_amended_witness : sublistOfB "a@b.com".data "a@b.com".data = true :=
  (C1_amended "a@b.com".data (fun _ => some []) "***@***.com".data
    ⟨["a@b.com".data], [], [], none⟩ (by decide)).1 "a@b.com".data (by decide)

/-- Claim C3 (counterexample): when the tagger raises (modelled by `none`),
`anonymize_data` produces no record at all — there is no email+phone-only
fallback, no audit record with empty name/address fields, no degraded-mode
flag, and the failure propagates through `process_resume`. -/
theorem C3_counterexample :
    anonymizeData "Contact: jane@example.com".data (fun _ => none) = none ∧
    processResume "Contact: jane@example.com".data (fun _ => none) = none := by
  refine ⟨by decide, by decide⟩

/-- Claim C3 (amended): a tagger failure propagates out of the redactor and
the pipeline (no degraded mode exists in the code); redaction completes with
empty name/address audit fields only when the tagger succeeds, e.g. with no
spans, in which case the output carries exactly the email and phone
substitutions. -/
theorem C3_amended (t : List Char) (tagger : List Char → Option (List Ent))
    (herr : tagger (phoneSub (emailSub t)) = none) :
    anonymizeData t tagger = none ∧ processResume t tagger = none ∧
    anonymizeData t (fun _ => some []) =
      some (phoneSub (emailSub t), ⟨emailFind t, phoneFind (emailSub t), [], none⟩) := by
  have h1 : anonymizeData t tagger = none := by
    simp only [anonymizeData]
    rw [herr]
  refine ⟨h1, ?_, ?_⟩
  · simp only [processResume, combinedData]
    rw [h1]
    rfl
  · simp only [anonymizeData]
    rfl

theorem C3_amended_witness :
    anonymizeData "Contact: a@b.com".data (fun _ => none) = none :=
  (C3_amended "Contact: a@b.com".data (fun _ => none) (by decide)).1

/-- Claim C8: on a text with no email matches, no phone matches, and a tagger
returning no spans, the anonymized text is the input unchanged and every audit
category is empty (the name key is absent). -/
theorem C8_no_match_frame (t : List Char) (tagger : List Char → Option (List Ent))
    (h1 : emailFind t = []) (h2 : phoneFind t = [])
    (htag : ∀ u, tagger u = some []) :
    anonymizeData t tagger = some (t, ⟨[], [], [], none⟩) := by
  have he : emailSub t = t := emailSub_of_no_match t h1
  have hp : phoneFind (emailSub t) = [] := by rw [he]; exact h2
  have hps : phoneSub (emailSub t) = emailSub t := phoneSub_of_no_match _ hp
  simp only [anonymizeData]
  rw [htag, h1, hp, hps, he]
  rfl

theorem C8_witness :
    anonymizeData "Hello World".data (fun _ => some []) =
      some ("Hello World".data, ⟨[], [], [], none⟩) :=
  C8_no_match_frame "Hello World".data (fun _ => some []) (by decide) (by decide)
    (fun _ => rfl)

/-- Claim C2 (counterexample): the final record is not a merge that includes
the audit fields.  On input `a@b.com` the audit records the email, yet no key
of the returned record carries it: the schema template only maps the five
section/text keys, and the masked PII lists are dropped. -/
theorem C2_counterexample :
    processResume "a@b.com".data (fun _ => some []) =
      some [("Skill_Set", JVal.vList []), ("Experience_Summary", JVal.vList []),
        ("Anonymized_Resume_Text", JVal.vStr "***@***.com".data),
        ("Certifications_List", JVal.vList []), ("Education_Records", JVal.vList [])] ∧
    anonymizeData "a@b.com".data (fun _ => some []) =
      some ("***@***.com".data, ⟨["a@b.com".data], [], [], none⟩) ∧
    (∀ kv ∈ [("Skill_Set", JVal.vList ([] : List (List Char))),
        ("Experience_Summary", JVal.vList []),
        ("Anonymized_Resume_Text", JVal.vStr "***@***.com".data),
        ("Certifications_List", JVal.vList []), ("Education_Records", JVal.vList [])],
      kv.2 ≠ JVal.vList ["a@b.com".data] ∧ kv.2 ≠ JVal.vStr "a@b.com".data) := by
  refine ⟨by decide, by decide, by decide⟩

/-- Claim C2 (amended): the pipeline's final record consists of exactly the
five schema-template keys — the four section lists extracted from the
anonymized text plus the anonymized text itself, each internal field looked up
with an explicit null default; the audit record's emails, phones, name and
addresses are computed but do not appear in the final record. -/
theorem C2_amended (t : List Char) (tagger : List Char → Option (List Ent))
    (txt : List Char) (aud : Audit) (h : anonymizeData t tagger = some (txt, aud)) :
    processResume t tagger =
      some [("Skill_Set", JVal.vList (extractInfo txt).skills),
        ("Experience_Summary", JVal.vList (extractInfo txt).experience),
        ("Anonymized_Resume_Text", JVal.vStr txt),
        ("Certifications_List", JVal.vList (extractInfo txt).certifications),
        ("Education_Records", JVal.vList (extractInfo txt).education)] := by
  simp only [processResume, combinedData]
  rw [h]
  rfl

theorem C2_amended_witness :
    processResume "a@b.com".data (fun _ => some []) =
      some [("Skill_Set", JVal.vList (extractInfo "***@***.com".data).skills),
        ("Experience_Summary", JVal.vList (extractInfo "***@***.com".data).experience),
        ("Anonymized_Resume_Text", JVal.vStr "***@***.com".data),
        ("Certifications_List", JVal.vList (extractInfo "***@***.com".data).certifications),
        ("Education_Records", JVal.vList (extractInfo "***@***.com".data).education)] :=
  C2_amended "a@b.com".data (fun _ => some []) "***@***.com".data
    ⟨["a@b.com".data], [], [], none⟩ (by decide)

/-- Claim C6: when the tagger reports PERSON spans, the first one (in span
order) becomes the candidate name: it is stored in the audit record, and the
name pass rewrites the post-phone text into the join, by the name placeholder,
of the occurrence-split segments — segments in which the name never occurs, so
every literal occurrence (not just the first) has been consumed and replaced. -/
theorem C6_candidate_name (t : List Char) (ents : List Ent) (n : List Char)
    (rest : List (List Char)) (hper : personsOf ents = n :: rest) (hn : n ≠ []) :
    anonymizeData t (fun _ => some ents) =
      some (addrPass (joinWith nameRepl (splitP (phoneSub (emailSub t)) n)) (locsOf ents),
        ⟨emailFind t, phoneFind (emailSub t), locsOf ents, some n⟩) ∧
    ∀ seg ∈ splitP (phoneSub (emailSub t)) n, sublistOfB n seg = false := by
  constructor
  · simp only [anonymizeData, hper, namePass]
    rw [replaceAll_eq_joinWith]
  · intro seg hseg
    exact splitPAux_no_occurrence n hn (phoneSub (emailSub t)).length
      (phoneSub (emailSub t)) (Nat.le_refl _) seg hseg

theorem C6_witness :
    anonymizeData "Jane Doe is here. Jane Doe again".data
        (fun _ => some [⟨"Jane Doe".data, EntLabel.PERSON⟩]) =
      some (addrPass (joinWith nameRepl
          (splitP (phoneSub (emailSub "Jane Doe is here. Jane Doe again".data))
            "Jane Doe".data))
          (locsOf [⟨"Jane Doe".data, EntLabel.PERSON⟩]),
        ⟨emailFind "Jane Doe is here. Jane Doe again".data,
          phoneFind (emailSub "Jane Doe is here. Jane Doe again".data),
          locsOf [⟨"Jane Doe".data, EntLabel.PERSON⟩], some "Jane Doe".data⟩) :=
  (C6_candidate_name "Jane Doe is here. Jane Doe again".data
    [⟨"Jane Doe".data, EntLabel.PERSON⟩] "Jane Doe".data [] (by decide) (by decide)).1

/-- Claim C5: section matchers use only the first keyword occurrence (shown
generally for the shared keyword search and concretely for a repeated
Education header); the skills capture stops at the first single line break, so
it never contains one, and is split on commas; the education, experience and
certifications captures stop at the first blank line, so they never contain
two consecutive line breaks, and are split on line breaks; and on the
scenario input the education list is exactly `BSc Computer Science, MIT`. -/
theorem C5_section_semantics :
    (extractInfo "Education:\nBSc Computer Science, MIT\n\nExperience:\n...".data).education
      = ["BSc Computer Science, MIT".data] ∧
    (extractInfo "Education: A\n\nEducation: B\n\nX".data).education = ["A".data] ∧
    (∀ (s kw : List Char) (r : Nat), findKw s kw = some r →
      ciAt s kw r = true ∧ ∀ q, q < r → ciAt s kw q = false) ∧
    (∀ (t x : List Char), x ∈ (extractInfo t).skills → '\n' ∉ x) ∧
    (∀ (t c : List Char), sectionCap "education".data t = some c →
      sublistOfB ['\n', '\n'] c = false) ∧
    (∀ (t c : List Char), sectionCap "certifications".data t = some c →
      sublistOfB ['\n', '\n'] c = false) ∧
    (∀ (t c : List Char), expSearch t = some (some c) →
      sublistOfB ['\n', '\n'] c = false) := by
  refine ⟨by decide, by decide, fun s kw r h => findKw_first s kw r h, ?_, ?_, ?_, ?_⟩
  · intro t x hx hnl
    have hx2 : x ∈ capItems ',' (skillsCap t) := hx
    obtain ⟨cap, hcap, hpy⟩ := mem_capItems ',' (skillsCap t) x hx2
    obtain ⟨j, hj⟩ := skillsCap_form t cap hcap
    have hc : '\n' ∈ cap := mem_pyItems_chars ',' cap x hpy '\n' hnl
    rw [hj] at hc
    exact capAux_skills_no_newline t (t.length + 1) j '\n' hc rfl
  · intro t c h
    obtain ⟨j, hj⟩ := sectionCap_form "education".data t c h
    rw [hj]
    exact capAux_no_blankline t (t.length + 1) j
  · intro t c h
    obtain ⟨j, hj⟩ := sectionCap_form "certifications".data t c h
    rw [hj]
    exact capAux_no_blankline t (t.length + 1) j
  · intro t c h
    obtain ⟨j, hj⟩ := expSearchAux_cap t (t.length + 1) 0 c h
    rw [hj]
    exact capAux_no_blankline t (t.length + 1) j

theorem C5_witness : '\n' ∉ "Python".data :=
  C5_section_semantics.2.2.2.1 "Skills: Python, SQL".data "Python".data (by decide)

/-- Claim C10: `extract_info` always returns a record with exactly the four
keys skills, education, experience, certifications, and every item in each of
the four lists is a nonempty string that neither starts nor ends with
whitespace. -/
theorem C10_shape :
    (∀ t : List Char, (extractInfoDict t).map Prod.fst =
      ["skills", "education", "experience", "certifications"]) ∧
    (∀ (t x : List Char),
      (x ∈ (extractInfo t).skills ∨ x ∈ (extractInfo t).education ∨
        x ∈ (extractInfo t).experience ∨ x ∈ (extractInfo t).certifications) →
      x ≠ [] ∧ (∀ y r, x = y :: r → isSpaceC y = false) ∧
        (∀ y r, x.reverse = y :: r → isSpaceC y = false)) := by
  constructor
  · intro t; rfl
  · intro t x hx
    rcases hx with hs | he | hexp | hc
    · obtain ⟨cap, _, hpy⟩ := mem_capItems ',' (skillsCap t) x hs
      exact mem_pyItems_shape ',' cap x hpy
    · obtain ⟨cap, _, hpy⟩ := mem_capItems '\n' (sectionCap "education".data t) x he
      exact mem_pyItems_shape '\n' cap x hpy
    · have hx2 : x ∈ (match expSearch t with
        | some (some c) => if c.isEmpty then [] else pyItems '\n' c
        | _ => ([] : List (List Char))) := hexp
      cases hse : expSearch t with
      | none => rw [hse] at hx2; simp at hx2
      | some o =>
        cases o with
        | none => rw [hse] at hx2; simp at hx2
        | some c =>
          rw [hse] at hx2
          simp only [] at hx2
          by_cases hce : c.isEmpty = true
          · rw [if_pos hce] at hx2; simp at hx2
          · rw [if_neg hce] at hx2
            exact mem_pyItems_shape '\n' c x hx2
    · obtain ⟨cap, _, hpy⟩ := mem_capItems '\n' (sectionCap "certifications".data t) x hc
      exact mem_pyItems_shape '\n' cap x hpy

theorem C10_witness : "Python".data ≠ [] :=
  (C10_shape.2 "Skills: Python, SQL".data "Python".data (Or.inl (by decide))).1
